import Mathlib

/-!
Verification of the path/graph resolution and traversal layer of a
Google-Drive filesystem wrapper (package `drivefs`).

The remote Drive store is modelled as a flat list of file nodes
(`DFile`), mirroring the flat, ID-keyed object graph the Go code queries
through the Drive API.  Each query helper of the Go source
(`findByID`, `findAllByNameIn`, `findAllIn`, `existsIn`) is translated
to a pure function over such a store; the mutating helpers
(`createDirIn`, `Files.Update`, `Files.Delete`, permission
create/update/delete) become explicit state passing over a store
structure.  Recursions of the source that are bounded only by the shape
of the remote graph (`resolvePathParts`, `walk`) take an explicit fuel
parameter and return `none` when the fuel runs out.
-/

namespace Drivefs

/-- MIME type constant for Drive folders (`mimeTypeGoogleAppFolder`). -/
def mimeTypeGoogleAppFolder : String := "application/vnd.google-apps.folder"

/-- MIME type constant for Drive shortcuts (`mimeTypeGoogleAppShortcut`). -/
def mimeTypeGoogleAppShortcut : String := "application/vnd.google-apps.shortcut"

/-- A remote Drive file node: the fields of `drive.File` that the
resolution and traversal code reads (`parents,id,name,mimeType,...`
per `driveFileFields`), plus the trashed flag the queries filter on. -/
structure DFile where
  id : String
  name : String
  mimeType : String
  parents : List String
  trashed : Bool
deriving DecidableEq, Repr

/-- The error taxonomy of `errors.go` (`ErrInvalidPath`, `ErrNotFound`,
`ErrAlreadyExists`, `ErrMultiParentsNotSupported`, `ErrNotReadable`,
`ErrNotRemovable`, `ErrDriveError`). -/
inductive DriveErr where
  | invalidPath
  | notFound
  | alreadyExists
  | multiParentsNotSupported
  | notReadable
  | notRemovable
  | driveError
deriving DecidableEq, Repr

/-- The remote file collection, as seen through the Drive list/get API. -/
abbrev Store := List DFile

/-- `findByID`: `Files.Get(fileID)`; a 404 (no node with this id) is
reported as `none` rather than an error. -/
def findByID (store : Store) (fileID : String) : Option DFile :=
  store.find? (fun f => f.id == fileID)

/-- `findAllByNameIn`: query `name = '<name>' and '<parentID>' in parents
and trashed = false`, draining all pages. -/
def findAllByNameIn (store : Store) (parentID name : String) : List DFile :=
  store.filter (fun f => f.name == name && f.parents.contains parentID && !f.trashed)

/-- `findAllIn`: query `'<parentID>' in parents and trashed = false`,
draining all pages. -/
def findAllIn (store : Store) (parentID : String) : List DFile :=
  store.filter (fun f => f.parents.contains parentID && !f.trashed)

/-- `existsIn`: same query as `findAllIn` with page size 1; true iff the
parent has at least one non-trashed child. -/
def existsIn (store : Store) (parentID : String) : Bool :=
  !(findAllIn store parentID).isEmpty

/-- `strings.Split(s, sep)` for a single-character separator, over the
character list of the string: the (possibly empty) substrings between
separators, in order.  `cur` is the current segment accumulated in
reverse. -/
def splitChars (sep : Char) : List Char → List Char → List String
  | [], cur => [⟨cur.reverse⟩]
  | c :: cs, cur =>
    if c = sep then (⟨cur.reverse⟩ : String) :: splitChars sep cs []
    else splitChars sep cs (c :: cur)

/-- `strings.Split(path, "/")`. -/
def splitOnSlash (path : String) : List String :=
  splitChars '/' path.data []

/-- `strings.HasPrefix(path, "/")`. -/
def startsWithSlash (path : String) : Bool :=
  match path.data with
  | c :: _ => c = '/'
  | [] => false

/-- One step of the segment loop of `validateAndSplitPath`: `.` and `..`
segments are errors, empty segments are skipped (`continue`), every
other segment is appended to the result. -/
def collectParts : List String → Except DriveErr (List String)
  | [] => .ok []
  | p :: rest =>
    if p == "." || p == ".." then .error .invalidPath
    else if p == "" then collectParts rest
    else (collectParts rest).map (fun parts => p :: parts)

/-- `validateAndSplitPath`: rejects the empty string and non-absolute
paths, then splits on `/` and runs the segment loop. -/
def validateAndSplitPath (path : String) : Except DriveErr (List String) :=
  if path == "" then .error .invalidPath
  else if !(startsWithSlash path) then .error .invalidPath
  else collectParts (splitOnSlash path)

/-- `strings.ReplaceAll` for a single-character pattern: every
occurrence of `c` is rewritten to the replacement `r`. -/
def replaceAllChar (c : Char) (r : List Char) : List Char → List Char
  | [] => []
  | x :: xs => (if x = c then r else [x]) ++ replaceAllChar c r xs

/-- `escapeQuery` as written in `drivefs.go`: first rewrites `'` to
`\'`, then rewrites `\` to `\\`. -/
def escapeQuery (s : String) : String :=
  let s1 : String := ⟨replaceAllChar '\'' ['\\', '\''] s.data⟩
  ⟨replaceAllChar '\\' ['\\', '\\'] s1.data⟩

/-- `escapeQuery` as written in the io/fs adapter (`drive_file.go`
area, `src/unnamed/part_002`): first rewrites `\` to `\\`, then `'` to
`\'`. -/
def escapeQueryFS (s : String) : String :=
  let s1 : String := ⟨replaceAllChar '\\' ['\\', '\\'] s.data⟩
  ⟨replaceAllChar '\'' ['\\', '\''] s1.data⟩

/-- The loop of `resolvePathParts`: climb parent links from
`currentID`, appending each node's name; stop with the collected names
at a parentless node, fail with `NotFound` on a dangling id and with
`MultiParentsNotSupported` on the first node that has more than one
parent.  `none` means the fuel ran out before the climb terminated. -/
def resolvePathPartsGo (store : Store) : Nat → String → List String →
    Option (Except DriveErr (List String))
  | 0, _, _ => none
  | fuel + 1, currentID, acc =>
    match findByID store currentID with
    | none => some (.error .notFound)
    | some f =>
      match f.parents with
      | [] => some (.ok acc)
      | [parentID] => resolvePathPartsGo store fuel parentID (acc ++ [f.name])
      | _ => some (.error .multiParentsNotSupported)

/-- `resolvePathParts`: run the climb from `fileID` with an empty
accumulator and reverse the collected names. -/
def resolvePathParts (store : Store) (fuel : Nat) (fileID : String) :
    Option (Except DriveErr (List String)) :=
  (resolvePathPartsGo store fuel fileID []).map (fun r => r.map List.reverse)

/-- `ResolvePath` as written in `drivefs.go`: the error returned by
`resolvePathParts` is assigned to `err` but the function returns
`nil` for the error value, so a failed climb yields the path built
from the empty segment list. -/
def ResolvePath (store : Store) (fuel : Nat) (fileID : String) :
    Option (Except DriveErr String) :=
  (resolvePathParts store fuel fileID).map (fun r =>
    let parts := match r with
      | .ok parts => parts
      | .error _ => []
    .ok ("/" ++ String.intercalate "/" parts))

/-- `dfsFindByPath`: when all segments are consumed the current node is
emitted; otherwise only folder nodes are expanded, into every
non-trashed child matching the next segment's name. -/
def dfsFindByPath (store : Store) (file : DFile) : List String → List DFile
  | [] => [file]
  | p :: rest =>
    if file.mimeType == mimeTypeGoogleAppFolder then
      (findAllByNameIn store file.id p).flatMap (fun c => dfsFindByPath store c rest)
    else []

/-- `FindByPath`: validate the path, fetch the root by id (a missing
root yields an empty result with no error), then collect every node
reached by `dfsFindByPath`. -/
def FindByPath (store : Store) (rootID : String) (path : String) :
    Except DriveErr (List DFile) :=
  match validateAndSplitPath path with
  | .error e => .error e
  | .ok parts =>
    match findByID store rootID with
    | none => .ok []
    | some file => .ok (dfsFindByPath store file parts)

/-!  Concrete stores used by the counterexample/bug-witness theorems. -/

/-- A node with two parents, as the remote graph permits. -/
def multiParentFile : DFile :=
  { id := "b", name := "b", mimeType := "text/plain",
    parents := ["p1", "p2"], trashed := false }

/-- A child of `multiParentFile`: its own parent list is fine, the
multi-parent node occurs one level up the chain. -/
def belowMultiParentFile : DFile :=
  { id := "x", name := "x", mimeType := "text/plain",
    parents := ["b"], trashed := false }

def multiParentStore : Store := [multiParentFile, belowMultiParentFile]

/-- C1: the claim says the public `ResolvePath` fails with
`MultiParentsNotSupported` whenever the parent chain contains a
multi-parent node.  The inner `resolvePathParts` does produce that
error — at the starting node and also when the multi-parent node is
deeper in the chain — but `ResolvePath` itself discards the error
(`return Path(...), nil`) and reports success with the path `"/"`,
contradicting its own doc comment. -/
theorem c1_resolvePath_swallows_multi_parent_error :
    resolvePathParts multiParentStore 5 "b" =
      some (.error .multiParentsNotSupported)
    ∧ resolvePathParts multiParentStore 5 "x" =
      some (.error .multiParentsNotSupported)
    ∧ ResolvePath multiParentStore 5 "b" = some (.ok "/")
    ∧ ResolvePath multiParentStore 5 "x" = some (.ok "/") := by
  refine ⟨rfl, rfl, rfl, rfl⟩

/-- C2: the claim (and the repository's own `TestEscapeQuery`, and the
io/fs variant of the function) require `O'Brien ↦ O\'Brien`, with a
single backslash before the quote.  The `drivefs.go` version replaces
quotes first and then doubles every backslash — including the one it
just inserted — so it produces `O\\'Brien` instead.  The backslash
scenario `a\b ↦ a\\b` holds in both versions. -/
theorem c2_escapeQuery_order :
    escapeQuery "O'Brien" = "O\\\\'Brien"
    ∧ escapeQueryFS "O'Brien" = "O\\'Brien"
    ∧ escapeQuery "a\\b" = "a\\\\b"
    ∧ escapeQueryFS "a\\b" = "a\\\\b" := by
  refine ⟨rfl, rfl, rfl, rfl⟩

/-- C4 counterexample: the claim says an empty segment produced by a
trailing or doubled separator is rejected with an error; in the code
the `p == ""` branch is `continue`, so such paths validate
successfully with the empty segments dropped. -/
theorem c4_empty_segment_skipped :
    validateAndSplitPath "/a/" = .ok ["a"]
    ∧ validateAndSplitPath "/a//b" = .ok ["a", "b"] := by
  refine ⟨rfl, rfl⟩

/-- Closed form of `collectParts`: an error iff some segment is `.` or
`..`, otherwise the list of non-empty segments in order. -/
theorem collectParts_eq (l : List String) :
    collectParts l =
      if l.any (fun p => p == "." || p == "..") then .error .invalidPath
      else .ok (l.filter (fun p => p != "")) := by
  induction l with
  | nil => rfl
  | cons p rest ih =>
    by_cases hdot : (p == "." || p == "..") = true
    · simp [collectParts, hdot]
    · by_cases hempty : (p == "") = true
      · have hne : (p != "") = false := by simp [bne, hempty]
        simp [collectParts, hdot, hempty, hne, ih]
      · have hne : (p != "") = true := by simp [bne, hempty]
        by_cases hrest : (rest.any fun q => q == "." || q == "..") = true
        · simp [collectParts, hdot, hempty, hrest, ih, Except.map]
        · simp [collectParts, hdot, hempty, hne, hrest, ih, Except.map]

/-- C4 amended: `validateAndSplitPath` fails with `InvalidPath` exactly
when the input is empty, does not start with `/`, or contains a `.` or
`..` segment; empty segments produced by trailing or doubled
separators are silently skipped, and the result is the ordered list of
the remaining (non-empty) segments. -/
theorem c4_validateAndSplitPath_characterization (path : String) :
    validateAndSplitPath path =
      if path == "" then .error .invalidPath
      else if !(startsWithSlash path) then .error .invalidPath
      else if (splitOnSlash path).any (fun p => p == "." || p == "..") then
        .error .invalidPath
      else .ok ((splitOnSlash path).filter (fun p => p != "")) := by
  by_cases h0 : (path == "") = true
  · simp [validateAndSplitPath, h0]
  · by_cases h1 : startsWithSlash path = true
    · simp [validateAndSplitPath, h0, h1, collectParts_eq]
    · simp [validateAndSplitPath, h0, h1]

/-! ### Mutating operations: directory creation and removal

The remote store together with the remote side's id supply.  `Files.Create`
returns a node carrying a fresh id assigned by the remote; the counter
models that assignment. -/

structure DStore where
  files : Store
  nextId : Nat
deriving DecidableEq, Repr

/-- `createDirIn`: `Files.Create` of a folder node named `name` with the
single parent `parentID`; the remote assigns the id and returns the
created node. -/
def createDirIn (st : DStore) (parentID name : String) : DFile × DStore :=
  let f : DFile :=
    { id := "gen" ++ toString st.nextId, name := name,
      mimeType := mimeTypeGoogleAppFolder, parents := [parentID], trashed := false }
  (f, { files := st.files ++ [f], nextId := st.nextId + 1 })

/-- The segment loop of `MkdirAll`: for each segment, list the
non-trashed children of the current node matching the segment name;
more than one match is `AlreadyExists`, exactly one match is descended
into without creating anything, no match creates a folder there and
descends into it.  After the last segment the current node is
returned. -/
def mkdirLoop (st : DStore) (file : DFile) (currentID : String) :
    List String → Except DriveErr DFile × DStore
  | [] => (.ok file, st)
  | p :: rest =>
    let files := findAllByNameIn st.files currentID p
    if files.length > 1 then (.error .alreadyExists, st)
    else
      match files with
      | [f] => mkdirLoop st f f.id rest
      | _ =>
        let created := createDirIn st currentID p
        mkdirLoop created.2 created.1 created.1.id rest

/-- `MkdirAll`: validate the path, fetch the root (missing root is
`NotFound`), then run the segment loop from the root. -/
def MkdirAll (st : DStore) (rootID : String) (path : String) :
    Except DriveErr DFile × DStore :=
  match validateAndSplitPath path with
  | .error e => (.error e, st)
  | .ok parts =>
    match findByID st.files rootID with
    | none => (.error .notFound, st)
    | some file => mkdirLoop st file rootID parts

/-- `RemoveAll`: `Files.Update(fileID, {Trashed: true})` when moving to
trash, `Files.Delete(fileID)` otherwise. -/
def RemoveAll (st : DStore) (fileID : String) (moveToTrash : Bool) :
    Except DriveErr Unit × DStore :=
  if moveToTrash then
    (.ok (), { st with
      files := st.files.map (fun f => if f.id == fileID then { f with trashed := true } else f) })
  else
    (.ok (), { st with files := st.files.filter (fun f => f.id != fileID) })

/-- `Remove`: fetch the node by id; a 404 returns `nil` immediately.
A non-empty folder is `NotRemovable`; otherwise delegate to
`RemoveAll`. -/
def Remove (st : DStore) (fileID : String) (moveToTrash : Bool) :
    Except DriveErr Unit × DStore :=
  match findByID st.files fileID with
  | none => (.ok (), st)
  | some file =>
    if file.mimeType == mimeTypeGoogleAppFolder then
      if existsIn st.files fileID then (.error .notRemovable, st)
      else RemoveAll st fileID moveToTrash
    else RemoveAll st fileID moveToTrash

/-- C10: when the remote reports the file id as missing (404 from
get-by-id), `Remove` returns success immediately: no trash update and
no delete is issued — the store is unchanged — rather than a
`NotFound` failure. -/
theorem c10_remove_missing_id_succeeds (st : DStore) (fileID : String)
    (moveToTrash : Bool) (h : findByID st.files fileID = none) :
    Remove st fileID moveToTrash = (.ok (), st) := by
  simp [Remove, h]

/-- C10 witness: removing a dangling id from a one-file store succeeds
and leaves the store untouched. -/
theorem c10_remove_missing_id_succeeds_witness :
    findByID [multiParentFile] "nope" = none
    ∧ Remove ⟨[multiParentFile], 0⟩ "nope" true = (.ok (), ⟨[multiParentFile], 0⟩) :=
  ⟨by decide, c10_remove_missing_id_succeeds ⟨[multiParentFile], 0⟩ "nope" true (by decide)⟩

/-- C5: the `MkdirAll` segment loop, exactly as the claim states it:
the public operation runs the loop from the resolved root over the
validated segments in order; at each segment, more than one non-trashed
matching child fails with `AlreadyExists` (mutating nothing), exactly
one matching child is descended into without creating anything, and no
matching child creates a fresh folder (name = segment, sole parent =
current node) appended to the store and descends into it; when the
segments are exhausted the metadata of the final node is returned. -/
theorem c5_mkdirAll_segment_policy (st : DStore) (rootID path : String)
    (parts : List String) (root file f : DFile) (currentID p : String)
    (rest : List String)
    (hval : validateAndSplitPath path = .ok parts)
    (hroot : findByID st.files rootID = some root) :
    MkdirAll st rootID path = mkdirLoop st root rootID parts
    ∧ mkdirLoop st file currentID [] = (.ok file, st)
    ∧ ((findAllByNameIn st.files currentID p).length > 1 →
        mkdirLoop st file currentID (p :: rest) = (.error .alreadyExists, st))
    ∧ (findAllByNameIn st.files currentID p = [f] →
        mkdirLoop st file currentID (p :: rest) = mkdirLoop st f f.id rest)
    ∧ (findAllByNameIn st.files currentID p = [] →
        mkdirLoop st file currentID (p :: rest) =
          mkdirLoop (createDirIn st currentID p).2 (createDirIn st currentID p).1
            (createDirIn st currentID p).1.id rest
        ∧ (createDirIn st currentID p).1.name = p
        ∧ (createDirIn st currentID p).1.parents = [currentID]
        ∧ (createDirIn st currentID p).1.mimeType = mimeTypeGoogleAppFolder
        ∧ (createDirIn st currentID p).2.files
            = st.files ++ [(createDirIn st currentID p).1]) := by
  refine ⟨by simp [MkdirAll, hval, hroot], rfl, ?_, ?_, ?_⟩
  · intro hlen
    have hne : ¬ (findAllByNameIn st.files currentID p).length ≤ 1 := by omega
    simp [mkdirLoop, if_pos hlen]
  · intro hone
    simp [mkdirLoop, hone]
  · intro hzero
    refine ⟨?_, rfl, rfl, rfl, rfl⟩
    simp [mkdirLoop, hzero]

/-- C5 witness: instantiate the segment-policy theorem on a store with
a root and one existing folder `a`. -/
theorem c5_mkdirAll_segment_policy_witness :
    validateAndSplitPath "/a/b" = .ok ["a", "b"]
    ∧ findByID [⟨"r", "", Drivefs.mimeTypeGoogleAppFolder, [], false⟩] "r"
        = some ⟨"r", "", Drivefs.mimeTypeGoogleAppFolder, [], false⟩
    ∧ MkdirAll ⟨[⟨"r", "", Drivefs.mimeTypeGoogleAppFolder, [], false⟩], 0⟩ "r" "/a/b"
        = mkdirLoop ⟨[⟨"r", "", Drivefs.mimeTypeGoogleAppFolder, [], false⟩], 0⟩
            ⟨"r", "", Drivefs.mimeTypeGoogleAppFolder, [], false⟩ "r" ["a", "b"] := by
  refine ⟨rfl, by decide, ?_⟩
  exact (c5_mkdirAll_segment_policy
    ⟨[⟨"r", "", Drivefs.mimeTypeGoogleAppFolder, [], false⟩], 0⟩ "r" "/a/b" ["a", "b"]
    ⟨"r", "", Drivefs.mimeTypeGoogleAppFolder, [], false⟩
    ⟨"r", "", Drivefs.mimeTypeGoogleAppFolder, [], false⟩
    ⟨"r", "", Drivefs.mimeTypeGoogleAppFolder, [], false⟩
    "r" "a" [] rfl (by decide)).1

/-! ### Permissions: grantees, match-and-update, delete -/

/-- Grantee type tags (`granteeTypeUser` etc. in `grantee.go`). -/
def granteeTypeUser : String := "user"

def granteeTypeGroup : String := "group"

def granteeTypeDomain : String := "domain"

def granteeTypeAnyone : String := "anyone"

/-- The sealed `Grantee` variants of `grantee.go`: user/group (email),
domain (domain name), anyone. -/
inductive Grantee where
  | user (email : String)
  | group (email : String)
  | domain (domain : String)
  | anyone
deriving DecidableEq, Repr

/-- A stored `drive.Permission`: the fields listed in
`drivePermissionFields` (`id,type,emailAddress,domain,role,allowFileDiscovery`). -/
structure DPerm where
  id : String
  type : String
  emailAddress : String
  domain : String
  role : String
  allowFileDiscovery : Bool
deriving DecidableEq, Repr

/-- `granteeMatch`: type-switch on the grantee, comparing the stored
entry's type tag and email/domain payload. -/
def granteeMatch (perm : DPerm) (grantee : Grantee) : Bool :=
  match grantee with
  | .user email => perm.type == granteeTypeUser && perm.emailAddress == email
  | .group email => perm.type == granteeTypeGroup && perm.emailAddress == email
  | .domain dom => perm.type == granteeTypeDomain && perm.domain == dom
  | .anyone => perm.type == granteeTypeAnyone

/-- The permission list of one file on the remote, with the remote
side's id supply for `Permissions.Create`. -/
structure PermStore where
  perms : List DPerm
  nextId : Nat
deriving DecidableEq, Repr

/-- The `Permission` argument of `PermSet` (grantee, role,
discoverability, and the optional id the caller passes through). -/
structure PermissionSpec where
  grantee : Grantee
  role : String
  id : String
  allowFileDiscovery : Bool
deriving DecidableEq, Repr

/-- The field update `perm.AllowFileDiscovery = ...; perm.Role = ...`
performed on a matching entry before the remote update call. -/
def updApply (ps : PermissionSpec) (q : DPerm) : DPerm :=
  { q with allowFileDiscovery := ps.allowFileDiscovery, role := ps.role }

/-- `Permissions.Update(fileID, perm.Id, perm)`: the remote replaces
the entry with that id. -/
def updatePermission (perms : List DPerm) (perm : DPerm) : List DPerm :=
  perms.map (fun q => if q.id == perm.id then perm else q)

/-- `Permissions.Create`: the remote stores the payload under a fresh
id of its own choosing and returns the created entry. -/
def createPermission (st : PermStore) (perm : DPerm) : DPerm × PermStore :=
  let created := { perm with id := "perm" ++ toString st.nextId }
  (created, { perms := st.perms ++ [created], nextId := st.nextId + 1 })

/-- The `drive.Permission` payload `PermSet` builds from its argument
in the create branch (email/domain/type from the grantee type-switch),
with the id the remote assigns. -/
def createdPerm (st : PermStore) (ps : PermissionSpec) : DPerm :=
  { id := "perm" ++ toString st.nextId,
    type :=
      match ps.grantee with
      | .user _ => granteeTypeUser
      | .group _ => granteeTypeGroup
      | .domain _ => granteeTypeDomain
      | .anyone => granteeTypeAnyone,
    emailAddress :=
      match ps.grantee with
      | .user email => email
      | .group email => email
      | .domain _ => ""
      | .anyone => "",
    domain :=
      match ps.grantee with
      | .domain dom => dom
      | _ => "",
    role := ps.role, allowFileDiscovery := ps.allowFileDiscovery }

/-- The scan loop of `PermSet`: every listed entry matching the grantee
is updated in place on the remote, and the `updated` flag records
whether any match was found. -/
def permSetLoop (ps : PermissionSpec) :
    List DPerm → List DPerm → Bool → List DPerm × Bool
  | [], remote, updated => (remote, updated)
  | perm :: rest, remote, updated =>
    if granteeMatch perm ps.grantee then
      permSetLoop ps rest (updatePermission remote (updApply ps perm)) true
    else permSetLoop ps rest remote updated

/-- `PermSet`: list the entries; update every entry matching the
grantee in place; if none matched, create a new entry from the
argument's fields.  Returns the listed entries (with the in-place
field updates, plus the created entry if any). -/
def PermSet (st : PermStore) (ps : PermissionSpec) : List DPerm × PermStore :=
  let perms := st.perms
  let localPerms := perms.map (fun q =>
    if granteeMatch q ps.grantee then updApply ps q else q)
  let res := permSetLoop ps perms st.perms false
  if res.2 then (localPerms, { st with perms := res.1 })
  else
    let created := createPermission { st with perms := res.1 }
      { id := ps.id,
        type := (createdPerm st ps).type,
        emailAddress := (createdPerm st ps).emailAddress,
        domain := (createdPerm st ps).domain,
        role := ps.role, allowFileDiscovery := ps.allowFileDiscovery }
    (localPerms ++ [created.1], created.2)

/-- The scan loop of `PermDel`: each entry matching the grantee is
deleted on the remote (one delete per match); the others are collected
in `remained`. -/
def permDelLoop (grantee : Grantee) :
    List DPerm → List DPerm → List String → List DPerm →
    List DPerm × List String × List DPerm
  | [], remote, deleted, remained => (remote, deleted, remained)
  | perm :: rest, remote, deleted, remained =>
    if granteeMatch perm grantee then
      permDelLoop grantee rest (remote.filter (fun q => q.id != perm.id))
        (deleted ++ [perm.id]) remained
    else permDelLoop grantee rest remote deleted (remained ++ [perm])

/-- `PermDel`: list the entries, delete every one matching the grantee,
and return the pre-deletion listing (the Go code returns
`newPermissions(perms)`, not `newPermissions(remainedPermissions)`).
The result is (returned list, store after, ids deleted remotely). -/
def PermDel (st : PermStore) (grantee : Grantee) :
    List DPerm × PermStore × List String :=
  let perms := st.perms
  let res := permDelLoop grantee perms st.perms [] []
  (perms, { st with perms := res.1 }, res.2.1)

/-- Composing the per-match remote deletes: removing id `i` and then
every id in `ids` removes exactly the ids in `i :: ids`. -/
theorem filter_ne_filter_not_contains (remote : List DPerm) (i : String) (ids : List String) :
    (remote.filter (fun q => q.id != i)).filter (fun q => !ids.contains q.id)
      = remote.filter (fun q => !((i :: ids).contains q.id)) := by
  rw [List.filter_filter]
  apply List.filter_congr
  intro a _
  by_cases h1 : a.id = i <;> by_cases h2 : a.id ∈ ids <;> simp [h1, h2, bne]

/-- Unrolled form of the `PermDel` scan loop: the remote loses exactly
the ids of the matching entries, one delete is issued per matching
entry (in listing order), and the non-matching entries are collected
in `remained`. -/
theorem permDelLoop_spec (g : Grantee) (l : List DPerm) :
    ∀ (remote : List DPerm) (deleted : List String) (remained : List DPerm),
    permDelLoop g l remote deleted remained =
      (remote.filter
         (fun q => !((l.filter (fun x => granteeMatch x g)).map DPerm.id).contains q.id),
       deleted ++ (l.filter (fun x => granteeMatch x g)).map DPerm.id,
       remained ++ l.filter (fun x => !granteeMatch x g)) := by
  induction l with
  | nil => intro remote deleted remained; simp [permDelLoop]
  | cons perm rest ih =>
    intro remote deleted remained
    by_cases h : granteeMatch perm g = true
    · simp [permDelLoop, h, ih, List.filter_cons, filter_ne_filter_not_contains, bne,
        Bool.and_comm]
    · have h' : granteeMatch perm g = false := by simpa using h
      simp [permDelLoop, h', ih, List.filter_cons]

/-- C9: `PermDel` issues one remote delete for every stored entry
matching the grantee — all of them, in listing order — so the store
afterwards holds exactly the non-matching entries; and the operation's
return value is the listing taken before the removals, not the
refreshed post-deletion list. -/
theorem c9_permDel_deletes_all_matches_returns_prior (st : PermStore) (g : Grantee)
    (hids : (st.perms.map DPerm.id).Nodup) :
    PermDel st g =
      (st.perms,
       { st with perms := st.perms.filter (fun q => !granteeMatch q g) },
       (st.perms.filter (fun q => granteeMatch q g)).map DPerm.id) := by
  unfold PermDel
  simp only [permDelLoop_spec, List.nil_append]
  have hfilter : st.perms.filter
      (fun q => !((st.perms.filter (fun x => granteeMatch x g)).map DPerm.id).contains q.id)
      = st.perms.filter (fun q => !granteeMatch q g) := by
    apply List.filter_congr
    intro q hq
    by_cases h : granteeMatch q g = true
    · have hmem : q.id ∈ (st.perms.filter (fun x => granteeMatch x g)).map DPerm.id :=
        List.mem_map_of_mem DPerm.id (List.mem_filter.mpr ⟨hq, h⟩)
      simp [h, hmem]
    · have h' : granteeMatch q g = false := by simpa using h
      have hnmem : q.id ∉ (st.perms.filter (fun x => granteeMatch x g)).map DPerm.id := by
        intro hmem
        obtain ⟨x, hx, hxid⟩ := List.mem_map.mp hmem
        have hx' := List.mem_filter.mp hx
        have : x = q := List.inj_on_of_nodup_map hids hx'.1 hq hxid
        rw [this] at hx'
        simp [h'] at hx'
      simp [h', hnmem]
  rw [hfilter]

/-- C9 witness: a store with two entries for the same user (the
pathological duplicate state) and one entry for someone else: both
matching entries are deleted, the returned list is the pre-deletion
listing. -/
theorem c9_permDel_witness :
    PermDel ⟨[⟨"pa", "user", "u@x", "", "reader", false⟩,
              ⟨"pb", "user", "v@x", "", "writer", false⟩,
              ⟨"pc", "user", "u@x", "", "writer", true⟩], 7⟩ (.user "u@x")
      = ([⟨"pa", "user", "u@x", "", "reader", false⟩,
          ⟨"pb", "user", "v@x", "", "writer", false⟩,
          ⟨"pc", "user", "u@x", "", "writer", true⟩],
         ⟨[⟨"pb", "user", "v@x", "", "writer", false⟩], 7⟩,
         ["pa", "pc"]) := by
  have h := c9_permDel_deletes_all_matches_returns_prior
    ⟨[⟨"pa", "user", "u@x", "", "reader", false⟩,
      ⟨"pb", "user", "v@x", "", "writer", false⟩,
      ⟨"pc", "user", "u@x", "", "writer", true⟩], 7⟩ (.user "u@x") (by decide)
  simpa using h

/-- Updating role and discoverability does not change the fields
`granteeMatch` inspects. -/
theorem granteeMatch_updApply (ps : PermissionSpec) (q : DPerm) (g : Grantee) :
    granteeMatch (updApply ps q) g = granteeMatch q g := by
  cases g <;> rfl

/-- The entry created for a grantee matches that grantee. -/
theorem granteeMatch_createdPerm (st : PermStore) (ps : PermissionSpec) :
    granteeMatch (createdPerm st ps) ps.grantee = true := by
  cases hg : ps.grantee <;> simp [granteeMatch, createdPerm, hg]

/-- The `PermSet` scan loop is a no-op on the remote when no listed
entry matches. -/
theorem permSetLoop_none (ps : PermissionSpec) (l : List DPerm)
    (h : ∀ q ∈ l, granteeMatch q ps.grantee = false) :
    ∀ (remote : List DPerm) (u : Bool), permSetLoop ps l remote u = (remote, u) := by
  induction l with
  | nil => intro remote u; rfl
  | cons perm rest ih =>
    intro remote u
    have hp := h perm (List.mem_cons_self _ _)
    simp [permSetLoop, hp, ih (fun q hq => h q (List.mem_cons_of_mem _ hq))]

/-- The `PermSet` scan loop with exactly one matching listed entry
updates that entry on the remote and reports a match. -/
theorem permSetLoop_single (ps : PermissionSpec) (l : List DPerm) (m : DPerm)
    (h : l.filter (fun q => granteeMatch q ps.grantee) = [m]) :
    ∀ (remote : List DPerm) (u : Bool),
      permSetLoop ps l remote u = (updatePermission remote (updApply ps m), true) := by
  induction l with
  | nil => simp at h
  | cons perm rest ih =>
    intro remote u
    rw [List.filter_cons] at h
    by_cases hp : granteeMatch perm ps.grantee = true
    · simp only [hp, if_true] at h
      obtain ⟨h1, h2⟩ := List.cons_eq_cons.mp h
      subst h1
      have hrest : ∀ q ∈ rest, granteeMatch q ps.grantee = false := by
        intro q hq
        by_cases hh : granteeMatch q ps.grantee = true
        · exfalso
          have : q ∈ rest.filter (fun q => granteeMatch q ps.grantee) :=
            List.mem_filter.mpr ⟨hq, hh⟩
          rw [h2] at this
          simp at this
        · simpa using hh
      simp [permSetLoop, hp, permSetLoop_none ps rest hrest]
    · have hp' : granteeMatch perm ps.grantee = false := by simpa using hp
      rw [hp'] at h
      simp only [Bool.false_eq_true, if_false] at h
      simp [permSetLoop, hp', ih h]

/-- `PermSet` when no stored entry matches the grantee: the listed
entries are untouched and one fresh entry carrying the requested
fields is created. -/
theorem PermSet_no_match (st : PermStore) (ps : PermissionSpec)
    (h : st.perms.filter (fun q => granteeMatch q ps.grantee) = []) :
    PermSet st ps =
      (st.perms ++ [createdPerm st ps],
       ⟨st.perms ++ [createdPerm st ps], st.nextId + 1⟩) := by
  have hnone : ∀ q ∈ st.perms, granteeMatch q ps.grantee = false := by
    intro q hq
    simpa using List.filter_eq_nil_iff.mp h q hq
  have hloop := permSetLoop_none ps st.perms hnone st.perms false
  have hlocal : st.perms.map
      (fun q => if granteeMatch q ps.grantee then updApply ps q else q) = st.perms := by
    calc st.perms.map (fun q => if granteeMatch q ps.grantee then updApply ps q else q)
        = st.perms.map id := List.map_congr_left (fun a ha => by simp [hnone a ha])
      _ = st.perms := List.map_id _
  simp [PermSet, hloop, hlocal, createPermission, createdPerm]

/-- `PermSet` when exactly one stored entry matches the grantee: that
entry is updated in place (remotely and in the returned listing) and
nothing is created. -/
theorem PermSet_one_match (st : PermStore) (ps : PermissionSpec) (m : DPerm)
    (hids : (st.perms.map DPerm.id).Nodup)
    (h : st.perms.filter (fun q => granteeMatch q ps.grantee) = [m]) :
    PermSet st ps =
      (st.perms.map (fun q => if granteeMatch q ps.grantee then updApply ps q else q),
       ⟨st.perms.map (fun q => if granteeMatch q ps.grantee then updApply ps q else q),
        st.nextId⟩) := by
  have hm : m ∈ st.perms ∧ granteeMatch m ps.grantee = true := by
    have : m ∈ st.perms.filter (fun q => granteeMatch q ps.grantee) := by
      rw [h]; exact List.mem_singleton.mpr rfl
    exact List.mem_filter.mp this
  have hloop := permSetLoop_single ps st.perms m h st.perms false
  have hupd : updatePermission st.perms (updApply ps m)
      = st.perms.map (fun q => if granteeMatch q ps.grantee then updApply ps q else q) := by
    apply List.map_congr_left
    intro q hq
    by_cases hid : q.id = m.id
    · have hqm : q = m := List.inj_on_of_nodup_map hids hq hm.1 hid
      subst hqm
      simp [hm.2, updApply]
    · have hq' : granteeMatch q ps.grantee = false := by
        by_cases ht : granteeMatch q ps.grantee = true
        · exfalso
          have : q ∈ st.perms.filter (fun x => granteeMatch x ps.grantee) :=
            List.mem_filter.mpr ⟨hq, ht⟩
          rw [h] at this
          exact hid (congrArg DPerm.id (List.mem_singleton.mp this))
        · simpa using ht
      have hbeq : (q.id == (updApply ps m).id) = false := by
        simpa [updApply] using hid
      simp [hbeq, hq']
  simp [PermSet, hloop, hupd]

/-- C8: with at most one stored entry matching the grantee (and
well-formed, distinct entry ids with a fresh remote id supply),
calling `PermSet` twice with the same grantee, role and
discoverability leaves exactly one entry for that grantee, carrying
the final role and discoverability; the second call updates in place —
it adds no entry, so there are never two. -/
theorem c8_permSet_twice_single_entry (st : PermStore) (ps : PermissionSpec)
    (hids : (st.perms.map DPerm.id).Nodup)
    (hone : (st.perms.filter (fun q => granteeMatch q ps.grantee)).length ≤ 1)
    (hfresh : ("perm" ++ toString st.nextId) ∉ st.perms.map DPerm.id) :
    ∃ e, (PermSet (PermSet st ps).2 ps).2.perms.filter
            (fun q => granteeMatch q ps.grantee) = [e]
      ∧ e.role = ps.role
      ∧ e.allowFileDiscovery = ps.allowFileDiscovery
      ∧ (PermSet (PermSet st ps).2 ps).2.perms.length
          = (PermSet st ps).2.perms.length := by
  have hupd_f_id : ∀ q : DPerm,
      (if granteeMatch q ps.grantee then updApply ps q else q).id = q.id := by
    intro q
    by_cases hq : granteeMatch q ps.grantee = true <;> simp [hq, updApply]
  have hupd_f_match : ∀ (q : DPerm) (g : Grantee),
      granteeMatch (if granteeMatch q ps.grantee then updApply ps q else q) g
        = granteeMatch q g := by
    intro q g
    by_cases hq : granteeMatch q ps.grantee = true <;> simp [hq, granteeMatch_updApply]
  match hf : st.perms.filter (fun q => granteeMatch q ps.grantee) with
  | _ :: _ :: _ => rw [hf] at hone; simp at hone
  | [] =>
    -- first call creates the entry, second call updates it in place
    have h1 := PermSet_no_match st ps hf
    set c := createdPerm st ps with hc
    have hcid : c.id = "perm" ++ toString st.nextId := rfl
    have hst1 : (PermSet st ps).2.perms = st.perms ++ [c] := by rw [h1]
    have hfilter1 : (st.perms ++ [c]).filter (fun q => granteeMatch q ps.grantee) = [c] := by
      rw [List.filter_append, hf]
      simp [granteeMatch_createdPerm st ps]
    have hids1 : ((st.perms ++ [c]).map DPerm.id).Nodup := by
      rw [List.map_append]
      apply List.Nodup.append hids (by simp)
      intro a ha hb
      simp only [List.map_cons, List.map_nil, List.mem_singleton] at hb
      rw [hb, hcid] at ha
      exact hfresh ha
    have h2 := PermSet_one_match ⟨st.perms ++ [c], st.nextId + 1⟩ ps c hids1 hfilter1
    have hmapid : (st.perms ++ [c]).map
        (fun q => if granteeMatch q ps.grantee then updApply ps q else q)
        = st.perms ++ [c] := by
      calc (st.perms ++ [c]).map
            (fun q => if granteeMatch q ps.grantee then updApply ps q else q)
          = (st.perms ++ [c]).map id := by
            apply List.map_congr_left
            intro a ha
            rcases List.mem_append.mp ha with ha' | ha'
            · have := List.filter_eq_nil_iff.mp hf a ha'
              simp only [id]
              simp [this]
            · have : a = c := by simpa using ha'
              subst this
              simp [granteeMatch_createdPerm st ps, hc, updApply, createdPerm]
        _ = st.perms ++ [c] := List.map_id _
    refine ⟨c, ?_, rfl, rfl, ?_⟩
    · have : (PermSet (PermSet st ps).2 ps).2.perms = st.perms ++ [c] := by
        rw [h1, h2]
        exact hmapid
      rw [this, hfilter1]
    · rw [h1, h2, hmapid]
  | [m] =>
    have h1 := PermSet_one_match st ps m hids hf
    set f : DPerm → DPerm :=
      fun q => if granteeMatch q ps.grantee then updApply ps q else q with hfdef
    have hids1 : ((st.perms.map f).map DPerm.id).Nodup := by
      rw [List.map_map]
      have : (DPerm.id ∘ f) = DPerm.id := funext (fun q => hupd_f_id q)
      rw [this]
      exact hids
    have hfilter1 : (st.perms.map f).filter (fun q => granteeMatch q ps.grantee)
        = [updApply ps m] := by
      rw [List.filter_map]
      have : st.perms.filter ((fun q => granteeMatch q ps.grantee) ∘ f)
          = st.perms.filter (fun q => granteeMatch q ps.grantee) := by
        apply List.filter_congr
        intro a _
        exact hupd_f_match a ps.grantee
      rw [this, hf]
      have hm : granteeMatch m ps.grantee = true := by
        have : m ∈ st.perms.filter (fun q => granteeMatch q ps.grantee) := by
          rw [hf]; exact List.mem_singleton.mpr rfl
        exact (List.mem_filter.mp this).2
      simp [hfdef, hm]
    have h2 := PermSet_one_match ⟨st.perms.map f, st.nextId⟩ ps (updApply ps m) hids1 hfilter1
    have hmap2 : (st.perms.map f).map f = st.perms.map f := by
      rw [List.map_map]
      apply List.map_congr_left
      intro a _
      show f (f a) = f a
      by_cases ha : granteeMatch a ps.grantee = true
      · simp [hfdef, ha, granteeMatch_updApply, updApply]
      · have ha' : granteeMatch a ps.grantee = false := by simpa using ha
        simp [hfdef, ha']
    refine ⟨updApply ps m, ?_, rfl, rfl, ?_⟩
    · have : (PermSet (PermSet st ps).2 ps).2.perms = st.perms.map f := by
        rw [h1, h2]
        exact hmap2
      rw [this, hfilter1]
    · rw [h1, h2, hmap2]

/-- C8 witness: two identical `PermSet` calls for a user on a file
with no prior entries leave exactly one matching entry. -/
theorem c8_permSet_twice_single_entry_witness :
    ∃ e, (PermSet (PermSet ⟨[], 0⟩ ⟨.user "u@x", "writer", "", true⟩).2
            ⟨.user "u@x", "writer", "", true⟩).2.perms.filter
            (fun q => granteeMatch q (Grantee.user "u@x")) = [e]
      ∧ e.role = "writer"
      ∧ e.allowFileDiscovery = true
      ∧ (PermSet (PermSet ⟨[], 0⟩ ⟨.user "u@x", "writer", "", true⟩).2
            ⟨.user "u@x", "writer", "", true⟩).2.perms.length
          = (PermSet ⟨[], 0⟩ ⟨.user "u@x", "writer", "", true⟩).2.perms.length :=
  c8_permSet_twice_single_entry ⟨[], 0⟩ ⟨.user "u@x", "writer", "", true⟩
    (by decide) (by decide) (by decide)

/-! ### Forward/reverse resolution round trip -/

/-- With pairwise-distinct ids, get-by-id returns exactly the member
node carrying that id. -/
theorem findByID_mem (store : Store) (f : DFile)
    (hids : (store.map DFile.id).Nodup) (hf : f ∈ store) :
    findByID store f.id = some f := by
  induction store with
  | nil => simp at hf
  | cons g rest ih =>
    rw [List.map_cons, List.nodup_cons] at hids
    rcases List.mem_cons.mp hf with h | h
    · subst h
      simp [findByID, List.find?]
    · have hne : (g.id == f.id) = false := by
        have hmem : f.id ∈ rest.map DFile.id := List.mem_map_of_mem DFile.id h
        have : g.id ≠ f.id := fun e => hids.1 (e ▸ hmem)
        simpa using this
      simpa [findByID, List.find?_cons, hne] using ih hids.2 h

/-- Descent/climb correspondence: if forward resolution reaches `f`
from `g` along `parts`, then the reverse-resolution climb started at
`f` retraces that chain — it consumes one fuel unit and collects one
name per segment, and continues from `g` with the segment names
appended in reverse. -/
theorem dfs_resolvePathPartsGo (store : Store)
    (hids : (store.map DFile.id).Nodup)
    (hpar : ∀ g ∈ store, g.parents.length ≤ 1) :
    ∀ (parts : List String) (g f : DFile), g ∈ store →
      f ∈ dfsFindByPath store g parts →
      ∀ (fuel : Nat) (acc : List String),
        resolvePathPartsGo store (parts.length + fuel) f.id acc
          = resolvePathPartsGo store fuel g.id (acc ++ parts.reverse) := by
  intro parts
  induction parts with
  | nil =>
    intro g f _ hf fuel acc
    simp only [dfsFindByPath, List.mem_singleton] at hf
    subst hf
    simp
  | cons p rest ih =>
    intro g f hg hf fuel acc
    by_cases hfold : (g.mimeType == mimeTypeGoogleAppFolder) = true
    · simp only [dfsFindByPath, hfold, if_true, List.mem_flatMap] at hf
      obtain ⟨c, hc, hfc⟩ := hf
      have hcmem : c ∈ store := (List.mem_filter.mp hc).1
      have hcprops := (List.mem_filter.mp hc).2
      simp only [Bool.and_eq_true, beq_iff_eq, Bool.not_eq_true'] at hcprops
      obtain ⟨⟨hcname, hcparent⟩, _⟩ := hcprops
      have hcpar : c.parents = [g.id] := by
        have hlen := hpar c hcmem
        match hcp : c.parents with
        | [] => rw [hcp] at hcparent; simp at hcparent
        | [a] =>
          rw [hcp] at hcparent
          have ha : g.id = a := by simpa using hcparent
          rw [← ha]
        | a :: b :: t => rw [hcp] at hlen; simp at hlen
      have harith : (p :: rest).length + fuel = rest.length + (fuel + 1) := by
        simp [List.length_cons]; omega
      rw [harith, ih c f hcmem hfc (fuel + 1) acc]
      have hcfind : findByID store c.id = some c := findByID_mem store c hids hcmem
      simp [resolvePathPartsGo, hcfind, hcpar, hcname, List.reverse_cons,
        List.append_assoc]
    · simp only [dfsFindByPath, hfold, Bool.false_eq_true, if_false] at hf
      simp at hf

/-- C3: on a well-formed store (distinct ids, at most one parent per
node, parentless root), if a canonical valid absolute path forward
resolves to the unique node `f`, then reverse resolution of `f.id`
returns exactly that path — forward and reverse resolution are mutual
inverses.  (Fuel `parts.length + 1` covers the climb, one step per
segment plus the root.) -/
theorem c3_forward_reverse_roundtrip (store : Store) (rootID p : String)
    (parts : List String) (froot f : DFile)
    (hids : (store.map DFile.id).Nodup)
    (hpar : ∀ g ∈ store, g.parents.length ≤ 1)
    (hroot : findByID store rootID = some froot)
    (hrootTop : froot.parents = [])
    (hval : validateAndSplitPath p = .ok parts)
    (hcanon : p = "/" ++ String.intercalate "/" parts)
    (hfind : FindByPath store rootID p = .ok [f]) :
    ResolvePath store (parts.length + 1) f.id = some (.ok p) := by
  have hdfs : dfsFindByPath store froot parts = [f] := by
    unfold FindByPath at hfind
    rw [hval, hroot] at hfind
    exact Except.ok.inj hfind
  have hfmem : f ∈ dfsFindByPath store froot parts := by
    rw [hdfs]; exact List.mem_singleton.mpr rfl
  have hrootmem : froot ∈ store := List.mem_of_find?_eq_some hroot
  have hrid : froot.id = rootID := by simpa using List.find?_some hroot
  have key := dfs_resolvePathPartsGo store hids hpar parts froot f hrootmem hfmem 1 []
  have hrootfind : findByID store froot.id = some froot := by rw [hrid]; exact hroot
  have hstep : resolvePathPartsGo store 1 froot.id ([] ++ parts.reverse)
      = some (.ok parts.reverse) := by
    simp [resolvePathPartsGo, hrootfind, hrootTop]
  rw [hstep] at key
  unfold ResolvePath resolvePathParts
  rw [key]
  simp [Except.map, hcanon]

/-- C3 witness: store `/a/b` as a two-level chain under a parentless
root; forward resolution of `/a/b` yields the single node `b1`, and
reverse resolution of `b1` returns `/a/b`. -/
theorem c3_forward_reverse_roundtrip_witness :
    FindByPath
        [⟨"r", "", Drivefs.mimeTypeGoogleAppFolder, [], false⟩,
         ⟨"a1", "a", Drivefs.mimeTypeGoogleAppFolder, ["r"], false⟩,
         ⟨"b1", "b", "text/plain", ["a1"], false⟩] "r" "/a/b"
      = .ok [⟨"b1", "b", "text/plain", ["a1"], false⟩]
    ∧ ResolvePath
        [⟨"r", "", Drivefs.mimeTypeGoogleAppFolder, [], false⟩,
         ⟨"a1", "a", Drivefs.mimeTypeGoogleAppFolder, ["r"], false⟩,
         ⟨"b1", "b", "text/plain", ["a1"], false⟩] 3 "b1"
      = some (.ok "/a/b") :=
  ⟨rfl,
   c3_forward_reverse_roundtrip
      [⟨"r", "", Drivefs.mimeTypeGoogleAppFolder, [], false⟩,
       ⟨"a1", "a", Drivefs.mimeTypeGoogleAppFolder, ["r"], false⟩,
       ⟨"b1", "b", "text/plain", ["a1"], false⟩] "r" "/a/b" ["a", "b"]
      ⟨"r", "", Drivefs.mimeTypeGoogleAppFolder, [], false⟩
      ⟨"b1", "b", "text/plain", ["a1"], false⟩
      (by decide) (by decide) (by decide) (by decide) rfl rfl rfl⟩

/-! ### All-matches resolution counts chains -/

/-- Membership in the name-filtered child query, spelled out. -/
theorem mem_findAllByNameIn (store : Store) (parentID name : String) (c : DFile) :
    c ∈ findAllByNameIn store parentID name ↔
      c ∈ store ∧ c.name = name ∧ parentID ∈ c.parents ∧ c.trashed = false := by
  simp [findAllByNameIn, List.mem_filter, and_assoc]

/-- The chains `dfsFindByPath` walks: one entry per way of descending
from `file` through matching children, each entry listing the nodes
visited in order. -/
def chainsFindByPath (store : Store) (file : DFile) : List String → List (List DFile)
  | [] => [[file]]
  | p :: rest =>
    if file.mimeType == mimeTypeGoogleAppFolder then
      (findAllByNameIn store file.id p).flatMap
        (fun c => (chainsFindByPath store c rest).map (fun ch => file :: ch))
    else []

/-- A chain of parent-child links from `file` whose names spell
`parts`: each step moves to a stored, non-trashed node named after the
next segment whose parent list contains the current node, and only
folder-type nodes are stepped through. -/
inductive PathChain (store : Store) : DFile → List String → List DFile → Prop
  | nil (f : DFile) : PathChain store f [] [f]
  | cons (f c : DFile) (p : String) (rest : List String) (ch : List DFile) :
      f.mimeType = mimeTypeGoogleAppFolder →
      c ∈ store → c.name = p → f.id ∈ c.parents → c.trashed = false →
      PathChain store c rest ch →
      PathChain store f (p :: rest) (f :: ch)

/-- The enumerated chains are exactly the `PathChain`s. -/
theorem mem_chainsFindByPath_iff (store : Store) :
    ∀ (parts : List String) (f : DFile) (ch : List DFile),
      ch ∈ chainsFindByPath store f parts ↔ PathChain store f parts ch := by
  intro parts
  induction parts with
  | nil =>
    intro f ch
    simp only [chainsFindByPath, List.mem_singleton]
    constructor
    · rintro rfl; exact PathChain.nil f
    · rintro h; cases h; rfl
  | cons p rest ih =>
    intro f ch
    by_cases hfold : (f.mimeType == mimeTypeGoogleAppFolder) = true
    · simp only [chainsFindByPath, hfold, if_true, List.mem_flatMap, List.mem_map]
      constructor
      · rintro ⟨c, hc, ch', hch', rfl⟩
        obtain ⟨hcm, hcn, hcp, hct⟩ := (mem_findAllByNameIn store f.id p c).mp hc
        exact PathChain.cons f c p rest ch' (by simpa using hfold) hcm hcn hcp hct
          ((ih c ch').mp hch')
      · intro h
        cases h with
        | cons f c p rest ch0 hfo hcm hcn hcp hct hch =>
          exact ⟨c, (mem_findAllByNameIn store f.id p c).mpr ⟨hcm, hcn, hcp, hct⟩,
            ch0, (ih c ch0).mpr hch, rfl⟩
    · simp only [chainsFindByPath, hfold, Bool.false_eq_true, if_false]
      constructor
      · intro h; simp at h
      · intro h
        cases h with
        | cons f c p rest ch0 hfo _ _ _ _ _ =>
          exact absurd (by simp [hfo] : (f.mimeType == mimeTypeGoogleAppFolder) = true) hfold

/-- Every enumerated chain starts at the node it was enumerated from. -/
theorem chainsFindByPath_head (store : Store) :
    ∀ (parts : List String) (f : DFile) (ch : List DFile),
      ch ∈ chainsFindByPath store f parts → ∃ t, ch = f :: t := by
  intro parts
  cases parts with
  | nil =>
    intro f ch h
    simp only [chainsFindByPath, List.mem_singleton] at h
    exact ⟨[], h⟩
  | cons p rest =>
    intro f ch h
    by_cases hfold : (f.mimeType == mimeTypeGoogleAppFolder) = true
    · simp only [chainsFindByPath, hfold, if_true, List.mem_flatMap, List.mem_map] at h
      obtain ⟨c, _, ch', _, rfl⟩ := h
      exact ⟨ch', rfl⟩
    · simp [chainsFindByPath, hfold] at h

/-- Pointwise congruence for `flatMap`. -/
theorem flatMap_congr_mem {α β : Type} (l : List α) (f g : α → List β)
    (h : ∀ a ∈ l, f a = g a) : l.flatMap f = l.flatMap g := by
  induction l with
  | nil => rfl
  | cons a t ih =>
    simp only [List.flatMap_cons, h a (List.mem_cons_self _ _),
      ih (fun b hb => h b (List.mem_cons_of_mem _ hb))]

/-- `dfsFindByPath` emits exactly the endpoint of each enumerated
chain, in the same order: one result per chain. -/
theorem dfsFindByPath_eq_chains_map (store : Store) :
    ∀ (parts : List String) (f : DFile),
      dfsFindByPath store f parts
        = (chainsFindByPath store f parts).map (fun ch => ch.getLastD f) := by
  intro parts
  induction parts with
  | nil => intro f; rfl
  | cons p rest ih =>
    intro f
    by_cases hfold : (f.mimeType == mimeTypeGoogleAppFolder) = true
    · simp only [dfsFindByPath, chainsFindByPath, hfold, if_true, List.map_flatMap,
        List.map_map]
      apply flatMap_congr_mem
      intro c _
      rw [ih c]
      apply List.map_congr_left
      intro ch hch
      obtain ⟨t, rfl⟩ := chainsFindByPath_head store rest c ch hch
      show (c :: t).getLastD c = (f :: c :: t).getLastD f
      rw [List.getLastD_cons, List.getLastD_cons, List.getLastD_cons]
    · simp [dfsFindByPath, chainsFindByPath, hfold]

/-- On a duplicate-free store the enumerated chains are pairwise
distinct: chains reached through different children differ at their
second node. -/
theorem chainsFindByPath_nodup (store : Store) (hnd : store.Nodup) :
    ∀ (parts : List String) (f : DFile),
      (chainsFindByPath store f parts).Nodup := by
  intro parts
  induction parts with
  | nil => intro f; simp [chainsFindByPath]
  | cons p rest ih =>
    intro f
    by_cases hfold : (f.mimeType == mimeTypeGoogleAppFolder) = true
    · simp only [chainsFindByPath, hfold, if_true]
      rw [List.nodup_flatMap]
      constructor
      · intro c _
        exact (ih c).map (fun x y hxy => (List.cons.injEq f x f y ▸ hxy : _ ∧ _).2)
      · have hchild : (findAllByNameIn store f.id p).Nodup := hnd.filter _
        apply List.Pairwise.imp ?_ hchild
        intro c c' hne x hx hx'
        simp only [List.mem_map] at hx hx'
        obtain ⟨ch, hch, rfl⟩ := hx
        obtain ⟨ch', hch', heq⟩ := hx'
        obtain ⟨t, rfl⟩ := chainsFindByPath_head store rest c ch hch
        obtain ⟨t', rfl⟩ := chainsFindByPath_head store rest c' ch' hch'
        have : c = c' := by
          have h2 := (List.cons.injEq f (c :: t) f (c' :: t') ▸ heq.symm : _ ∧ _).2
          exact (List.cons.injEq c t c' t' ▸ h2 : _ ∧ _).1
        exact hne this
    · simp [chainsFindByPath, hfold]

/-- C6: all-matches forward resolution returns one result per distinct
parent-child chain from the root whose names spell the path's
segments (descending only through folders): the result count equals
the number of enumerated chains, the enumerated chains are exactly the
`PathChain`s and are pairwise distinct, and absence of any chain gives
an empty `.ok` result, never an error. -/
theorem c6_findByPath_counts_chains (store : Store) (rootID path : String)
    (parts : List String) (froot : DFile)
    (hnd : store.Nodup)
    (hval : validateAndSplitPath path = .ok parts)
    (hroot : findByID store rootID = some froot) :
    FindByPath store rootID path = .ok (dfsFindByPath store froot parts)
    ∧ (dfsFindByPath store froot parts).length
        = (chainsFindByPath store froot parts).length
    ∧ (∀ ch, ch ∈ chainsFindByPath store froot parts ↔ PathChain store froot parts ch)
    ∧ (chainsFindByPath store froot parts).Nodup
    ∧ ((∀ ch, ¬ PathChain store froot parts ch) →
        FindByPath store rootID path = .ok []) := by
  have h1 : FindByPath store rootID path = .ok (dfsFindByPath store froot parts) := by
    unfold FindByPath
    rw [hval, hroot]
  refine ⟨h1, ?_, fun ch => mem_chainsFindByPath_iff store parts froot ch,
    chainsFindByPath_nodup store hnd parts froot, ?_⟩
  · rw [dfsFindByPath_eq_chains_map]
    exact List.length_map _ _
  · intro hnone
    have hchains : chainsFindByPath store froot parts = [] := by
      apply List.eq_nil_iff_forall_not_mem.mpr
      intro ch hch
      exact hnone ch ((mem_chainsFindByPath_iff store parts froot ch).mp hch)
    rw [h1, dfsFindByPath_eq_chains_map, hchains]
    rfl

/-- C6 witness: a root with two distinct folders both named `b`;
resolving `/b` returns two results, one per chain. -/
theorem c6_findByPath_counts_chains_witness :
    FindByPath
        [⟨"r", "", Drivefs.mimeTypeGoogleAppFolder, [], false⟩,
         ⟨"b1", "b", Drivefs.mimeTypeGoogleAppFolder, ["r"], false⟩,
         ⟨"b2", "b", Drivefs.mimeTypeGoogleAppFolder, ["r"], false⟩] "r" "/b"
      = .ok (dfsFindByPath
          [⟨"r", "", Drivefs.mimeTypeGoogleAppFolder, [], false⟩,
           ⟨"b1", "b", Drivefs.mimeTypeGoogleAppFolder, ["r"], false⟩,
           ⟨"b2", "b", Drivefs.mimeTypeGoogleAppFolder, ["r"], false⟩]
          ⟨"r", "", Drivefs.mimeTypeGoogleAppFolder, [], false⟩ ["b"])
    ∧ (dfsFindByPath
          [⟨"r", "", Drivefs.mimeTypeGoogleAppFolder, [], false⟩,
           ⟨"b1", "b", Drivefs.mimeTypeGoogleAppFolder, ["r"], false⟩,
           ⟨"b2", "b", Drivefs.mimeTypeGoogleAppFolder, ["r"], false⟩]
          ⟨"r", "", Drivefs.mimeTypeGoogleAppFolder, [], false⟩ ["b"]).length
        = (chainsFindByPath
          [⟨"r", "", Drivefs.mimeTypeGoogleAppFolder, [], false⟩,
           ⟨"b1", "b", Drivefs.mimeTypeGoogleAppFolder, ["r"], false⟩,
           ⟨"b2", "b", Drivefs.mimeTypeGoogleAppFolder, ["r"], false⟩]
          ⟨"r", "", Drivefs.mimeTypeGoogleAppFolder, [], false⟩ ["b"]).length :=
  ⟨(c6_findByPath_counts_chains _ "r" "/b" ["b"]
      ⟨"r", "", Drivefs.mimeTypeGoogleAppFolder, [], false⟩
      (by decide) rfl (by decide)).1,
   (c6_findByPath_counts_chains _ "r" "/b" ["b"]
      ⟨"r", "", Drivefs.mimeTypeGoogleAppFolder, [], false⟩
      (by decide) rfl (by decide)).2.1⟩

/-! ### Tree walk -/

/-- Membership in the unfiltered child query, spelled out. -/
theorem mem_findAllIn (store : Store) (parentID : String) (c : DFile) :
    c ∈ findAllIn store parentID ↔
      c ∈ store ∧ parentID ∈ c.parents ∧ c.trashed = false := by
  simp [findAllIn, List.mem_filter, and_assoc]

/-- `walk`: call the visitor on the node (with its `/`-joined path),
then, only when the node is a folder, list its non-trashed children
and recurse into each in listing order with the child's name appended
to the path, stopping on the first failing recursion.  The visitor
here collects the visits; `none` = out of fuel. -/
def walkGo (store : Store) : Nat → List String → DFile →
    Option (List (String × DFile))
  | 0, _, _ => none
  | fuel + 1, path, file =>
    if file.mimeType == mimeTypeGoogleAppFolder then
      match (findAllIn store file.id).foldr
          (fun c acc =>
            match walkGo store fuel (path ++ [c.name]) c with
            | none => none
            | some l =>
              match acc with
              | none => none
              | some ls => some (l ++ ls))
          (some []) with
      | none => none
      | some rest => some (("/" ++ String.intercalate "/" path, file) :: rest)
    else some [("/" ++ String.intercalate "/" path, file)]

/-- The `for` loop of `walk` over the listed children. -/
def walkChildren (store : Store) (fuel : Nat) (path : List String)
    (cs : List DFile) : Option (List (String × DFile)) :=
  cs.foldr
    (fun c acc =>
      match walkGo store fuel (path ++ [c.name]) c with
      | none => none
      | some l =>
        match acc with
        | none => none
        | some ls => some (l ++ ls))
    (some [])

/-- `Walk`: fetch the starting node by id (missing is `NotFound`) and
run the traversal from it with the empty relative path. -/
def Walk (store : Store) (fuel : Nat) (rootID : String) :
    Option (Except DriveErr (List (String × DFile))) :=
  match findByID store rootID with
  | none => some (.error .notFound)
  | some file => (walkGo store fuel [] file).map .ok

/-- `g` is in the traversal's subtree of `f`: equal to `f`, or reached
by descending parent-child links to stored, non-trashed children,
stepping only through folder-type nodes. -/
inductive Reaches (store : Store) : DFile → DFile → Prop
  | refl (f : DFile) : Reaches store f f
  | step (f c g : DFile) :
      f.mimeType = mimeTypeGoogleAppFolder →
      c ∈ store → f.id ∈ c.parents → c.trashed = false →
      Reaches store c g → Reaches store f g

/-- `Reaches` with the number of links recorded. -/
inductive Descend (store : Store) : DFile → DFile → Nat → Prop
  | refl (f : DFile) : Descend store f f 0
  | step (f c g : DFile) (n : Nat) :
      f.mimeType = mimeTypeGoogleAppFolder →
      c ∈ store → f.id ∈ c.parents → c.trashed = false →
      Descend store c g n → Descend store f g (n + 1)

theorem reaches_iff_descend (store : Store) (f g : DFile) :
    Reaches store f g ↔ ∃ n, Descend store f g n := by
  constructor
  · intro h
    induction h with
    | refl f => exact ⟨0, Descend.refl f⟩
    | step f c g hfo hcm hcp hct _ ih =>
      obtain ⟨n, hn⟩ := ih
      exact ⟨n + 1, Descend.step f c g n hfo hcm hcp hct hn⟩
  · rintro ⟨n, h⟩
    induction h with
    | refl f => exact Reaches.refl f
    | step f c g n hfo hcm hcp hct _ ih => exact Reaches.step f c g hfo hcm hcp hct ih

/-- Unfolding of one `walk` visit. -/
theorem walkGo_succ (store : Store) (fuel : Nat) (path : List String) (file : DFile) :
    walkGo store (fuel + 1) path file =
      if file.mimeType == mimeTypeGoogleAppFolder then
        match walkChildren store fuel path (findAllIn store file.id) with
        | none => none
        | some rest => some (("/" ++ String.intercalate "/" path, file) :: rest)
      else some [("/" ++ String.intercalate "/" path, file)] := rfl

/-- Unfolding of the child loop. -/
theorem walkChildren_cons (store : Store) (fuel : Nat) (path : List String)
    (c : DFile) (cs : List DFile) :
    walkChildren store fuel path (c :: cs) =
      match walkGo store fuel (path ++ [c.name]) c with
      | none => none
      | some l =>
        match walkChildren store fuel path cs with
        | none => none
        | some ls => some (l ++ ls) := rfl

/-- The child loop on an empty listing returns no visits. -/
theorem walkChildren_nil (store : Store) (fuel : Nat) (path : List String) :
    walkChildren store fuel path [] = some [] := rfl

/-- The first visit of a `walk` is the starting node, with its own
path — the traversal visits the starting node before anything else. -/
theorem walkGo_head (store : Store) (fuel : Nat) (path : List String) (file : DFile)
    (l : List (String × DFile)) (h : walkGo store fuel path file = some l) :
    l.head? = some ("/" ++ String.intercalate "/" path, file) := by
  cases fuel with
  | zero => simp [walkGo] at h
  | succ fuel =>
    rw [walkGo_succ] at h
    by_cases hfold : (file.mimeType == mimeTypeGoogleAppFolder) = true
    · rw [if_pos hfold] at h
      cases hwc : walkChildren store fuel path (findAllIn store file.id) with
      | none => rw [hwc] at h; simp at h
      | some rest =>
        rw [hwc] at h
        obtain rfl : l = _ := (Option.some.inj h).symm
        rfl
    · rw [if_neg hfold] at h
      obtain rfl : l = _ := (Option.some.inj h).symm
      rfl

/-- A non-folder node — shortcut, opaque application document, plain
file — is visited but never expanded: its walk is the single visit. -/
theorem walkGo_nonfolder (store : Store) (fuel : Nat) (path : List String) (file : DFile)
    (hnf : file.mimeType ≠ mimeTypeGoogleAppFolder) :
    walkGo store (fuel + 1) path file
      = some [("/" ++ String.intercalate "/" path, file)] := by
  rw [walkGo_succ, if_neg (by simpa using hnf)]

/-- Soundness of the child loop, given soundness of the recursive
walks at the current fuel. -/
theorem walkChildren_sound (store : Store) (fuel : Nat)
    (IH : ∀ (path : List String) (file : DFile) (l : List (String × DFile))
      (q : String) (g : DFile),
      walkGo store fuel path file = some l → (q, g) ∈ l →
      ∃ n, Descend store file g n) :
    ∀ (cs : List DFile) (path : List String) (l : List (String × DFile))
      (q : String) (g : DFile),
      walkChildren store fuel path cs = some l → (q, g) ∈ l →
      ∃ c n, c ∈ cs ∧ Descend store c g n := by
  intro cs
  induction cs with
  | nil =>
    intro path l q g h hm
    rw [walkChildren_nil] at h
    obtain rfl : l = [] := (Option.some.inj h).symm
    simp at hm
  | cons c cs ihcs =>
    intro path l q g h hm
    rw [walkChildren_cons] at h
    cases hw : walkGo store fuel (path ++ [c.name]) c with
    | none => rw [hw] at h; simp at h
    | some lc =>
      rw [hw] at h
      cases hcs : walkChildren store fuel path cs with
      | none => rw [hcs] at h; simp at h
      | some ls =>
        rw [hcs] at h
        obtain rfl : l = lc ++ ls := (Option.some.inj h).symm
        rcases List.mem_append.mp hm with hm' | hm'
        · obtain ⟨n, hn⟩ := IH _ c lc q g hw hm'
          exact ⟨c, n, List.mem_cons_self _ _, hn⟩
        · obtain ⟨c', n, hc', hn⟩ := ihcs path ls q g hcs hm'
          exact ⟨c', n, List.mem_cons_of_mem _ hc', hn⟩

/-- Every node visited by `walk` lies in the subtree of the starting
node: it is reached by a chain of folder → non-trashed-child links. -/
theorem walkGo_sound (store : Store) :
    ∀ (fuel : Nat) (path : List String) (file : DFile) (l : List (String × DFile))
      (q : String) (g : DFile),
      walkGo store fuel path file = some l → (q, g) ∈ l →
      ∃ n, Descend store file g n := by
  intro fuel
  induction fuel with
  | zero => intro path file l q g h; simp [walkGo] at h
  | succ fuel ih =>
    intro path file l q g h hm
    rw [walkGo_succ] at h
    by_cases hfold : (file.mimeType == mimeTypeGoogleAppFolder) = true
    · rw [if_pos hfold] at h
      cases hwc : walkChildren store fuel path (findAllIn store file.id) with
      | none => rw [hwc] at h; simp at h
      | some rest =>
        rw [hwc] at h
        obtain rfl : l = _ :: rest := (Option.some.inj h).symm
        rcases List.mem_cons.mp hm with hm' | hm'
        · have hg : g = file := congrArg Prod.snd hm'
          exact ⟨0, by rw [hg]; exact Descend.refl file⟩
        · obtain ⟨c, n, hc, hn⟩ := walkChildren_sound store fuel ih _ path rest q g hwc hm'
          obtain ⟨hcm, hcp, hct⟩ := (mem_findAllIn store file.id c).mp hc
          exact ⟨n + 1, Descend.step file c g n (by simpa using hfold) hcm hcp hct hn⟩
    · rw [if_neg hfold] at h
      obtain rfl : l = _ := (Option.some.inj h).symm
      have hg : g = file := congrArg Prod.snd (List.mem_singleton.mp hm)
      exact ⟨0, by rw [hg]; exact Descend.refl file⟩

/-- A successful child loop contains each child's full walk. -/
theorem walkChildren_member (store : Store) (fuel : Nat) :
    ∀ (cs : List DFile) (path : List String) (l : List (String × DFile)) (c : DFile),
      walkChildren store fuel path cs = some l → c ∈ cs →
      ∃ lc, walkGo store fuel (path ++ [c.name]) c = some lc ∧ ∀ x ∈ lc, x ∈ l := by
  intro cs
  induction cs with
  | nil =>
    intro path l c _ hc
    simp at hc
  | cons c0 cs ihcs =>
    intro path l c h hc
    rw [walkChildren_cons] at h
    cases hw : walkGo store fuel (path ++ [c0.name]) c0 with
    | none => rw [hw] at h; simp at h
    | some lc0 =>
      rw [hw] at h
      cases hcs : walkChildren store fuel path cs with
      | none => rw [hcs] at h; simp at h
      | some ls =>
        rw [hcs] at h
        obtain rfl : l = lc0 ++ ls := (Option.some.inj h).symm
        rcases List.mem_cons.mp hc with rfl | hc'
        · exact ⟨lc0, hw, fun x hx => List.mem_append.mpr (Or.inl hx)⟩
        · obtain ⟨lc, hlc, hsub⟩ := ihcs path ls c hcs hc'
          exact ⟨lc, hlc, fun x hx => List.mem_append.mpr (Or.inr (hsub x hx))⟩

/-- Completeness: every node of the subtree is visited whenever the
walk completes within its fuel. -/
theorem walkGo_complete (store : Store) :
    ∀ (f g : DFile), Reaches store f g →
      ∀ (fuel : Nat) (path : List String) (l : List (String × DFile)),
        walkGo store fuel path f = some l → ∃ q, (q, g) ∈ l := by
  intro f g h
  induction h with
  | refl f =>
    intro fuel path l hw
    have hh := walkGo_head store fuel path f l hw
    cases l with
    | nil => simp at hh
    | cons x t =>
      obtain rfl : x = _ := Option.some.inj hh
      exact ⟨"/" ++ String.intercalate "/" path, List.mem_cons_self _ _⟩
  | step f c g hfo hcm hcp hct _ ih =>
    intro fuel path l hw
    cases fuel with
    | zero => simp [walkGo] at hw
    | succ fuel =>
      rw [walkGo_succ, if_pos (by simp [hfo])] at hw
      cases hwc : walkChildren store fuel path (findAllIn store f.id) with
      | none => rw [hwc] at hw; simp at hw
      | some rest =>
        rw [hwc] at hw
        obtain rfl : l = _ :: rest := (Option.some.inj hw).symm
        have hcmem : c ∈ findAllIn store f.id :=
          (mem_findAllIn store f.id c).mpr ⟨hcm, hcp, hct⟩
        obtain ⟨lc, hlc, hsub⟩ := walkChildren_member store fuel _ path rest c hwc hcmem
        obtain ⟨q, hq⟩ := ih fuel (path ++ [c.name]) lc hlc
        exact ⟨q, List.mem_cons_of_mem _ (hsub _ hq)⟩

/-- A depth function certifying the store is forest-shaped makes the
chain length equal the depth difference. -/
theorem descend_depth (store : Store) (d : DFile → Nat)
    (hdepth : ∀ c ∈ store, ∀ pf ∈ store, pf.id ∈ c.parents → d c = d pf + 1) :
    ∀ (f g : DFile) (n : Nat), Descend store f g n → f ∈ store → d g = d f + n := by
  intro f g n h
  induction h with
  | refl f => intro _; omega
  | step f c g n _ hcm hcp _ _ ih =>
    intro hf
    have h1 : d c = d f + 1 := hdepth c hcm f hf hcp
    have h2 : d g = d c + n := ih hcm
    omega

/-- On a store with distinct ids and at most one parent per node, the
top of a descent chain of a given length to a given node is unique. -/
theorem descend_unique (store : Store)
    (hids : (store.map DFile.id).Nodup)
    (hpar : ∀ x ∈ store, x.parents.length ≤ 1) :
    ∀ (n : Nat) (f fb g : DFile), f ∈ store → fb ∈ store →
      Descend store f g n → Descend store fb g n → f = fb := by
  intro n
  induction n with
  | zero =>
    intro f fb g _ _ h hb
    cases h
    cases hb
    rfl
  | succ n ih =>
    intro f fb g hf hfb h hb
    cases h with
    | step _ c _ _ _ hcm hcp _ hdc =>
      cases hb with
      | step _ cb _ _ _ hcmb hcpb _ hdcb =>
        have hcc : c = cb := ih c cb g hcm hcmb hdc hdcb
        subst hcc
        have hlen := hpar c hcm
        have hid : f.id = fb.id := by
          match hcpats : c.parents with
          | [] => rw [hcpats] at hcp; simp at hcp
          | [a] =>
            rw [hcpats] at hcp hcpb
            simp at hcp hcpb
            rw [hcp, hcpb]
          | a :: b :: t => rw [hcpats] at hlen; simp at hlen
        exact List.inj_on_of_nodup_map hids hf hfb hid

/-- Nodup of the visited nodes of a child loop, given nodup for the
recursive walks at the current fuel: sibling subtrees are disjoint
because a visited node determines its chain length (by depth) and then
the sibling it came through (by chain uniqueness). -/
theorem walkChildren_nodup (store : Store) (d : DFile → Nat)
    (hids : (store.map DFile.id).Nodup)
    (hpar : ∀ x ∈ store, x.parents.length ≤ 1)
    (hdepth : ∀ c ∈ store, ∀ pf ∈ store, pf.id ∈ c.parents → d c = d pf + 1)
    (fuel : Nat) (f : DFile) (hf : f ∈ store)
    (IHnodup : ∀ (path : List String) (file : DFile) (l : List (String × DFile)),
      walkGo store fuel path file = some l → file ∈ store →
      (l.map Prod.snd).Nodup) :
    ∀ (cs : List DFile) (path : List String) (l : List (String × DFile)),
      walkChildren store fuel path cs = some l →
      cs.Nodup → (∀ c ∈ cs, c ∈ store ∧ f.id ∈ c.parents ∧ c.trashed = false) →
      (l.map Prod.snd).Nodup := by
  intro cs
  induction cs with
  | nil =>
    intro path l h _ _
    rw [walkChildren_nil] at h
    obtain rfl : l = [] := (Option.some.inj h).symm
    simp
  | cons c cs ihcs =>
    intro path l h hnd hprops
    rw [walkChildren_cons] at h
    cases hw : walkGo store fuel (path ++ [c.name]) c with
    | none => rw [hw] at h; simp at h
    | some lc =>
      rw [hw] at h
      cases hcs : walkChildren store fuel path cs with
      | none => rw [hcs] at h; simp at h
      | some ls =>
        rw [hcs] at h
        obtain rfl : l = lc ++ ls := (Option.some.inj h).symm
        rw [List.map_append]
        have hc0 := hprops c (List.mem_cons_self _ _)
        apply List.Nodup.append
        · exact IHnodup _ c lc hw hc0.1
        · exact ihcs path ls hcs (List.nodup_cons.mp hnd).2
            (fun x hx => hprops x (List.mem_cons_of_mem _ hx))
        · intro g hg1 hg2
          obtain ⟨⟨q1, g1⟩, hq1, hs1⟩ := List.mem_map.mp hg1
          obtain ⟨⟨q2, g2⟩, hq2, hs2⟩ := List.mem_map.mp hg2
          obtain ⟨n, hd1⟩ := walkGo_sound store fuel _ c lc q1 g1 hw hq1
          obtain ⟨cb, m, hcb, hd2⟩ :=
            walkChildren_sound store fuel (walkGo_sound store fuel) cs path ls q2 g2 hcs hq2
          have hcb0 := hprops cb (List.mem_cons_of_mem _ hcb)
          have hdc : d c = d f + 1 := hdepth c hc0.1 f hf hc0.2.1
          have hdcb : d cb = d f + 1 := hdepth cb hcb0.1 f hf hcb0.2.1
          have hg12 : g1 = g2 := by rw [show g1 = g from hs1, show g2 = g from hs2]
          have hdg1 : d g1 = d c + n := descend_depth store d hdepth c g1 n hd1 hc0.1
          have hdg2 : d g2 = d cb + m := descend_depth store d hdepth cb g2 m hd2 hcb0.1
          have hnm : n = m := by rw [hg12] at hdg1; omega
          rw [hnm] at hd1
          rw [← hg12] at hd2
          have : c = cb := descend_unique store hids hpar m c cb g1 hc0.1 hcb0.1 hd1 hd2
          exact (List.nodup_cons.mp hnd).1 (this ▸ hcb)

/-- The visited nodes of a walk are pairwise distinct on a
forest-shaped store: each reachable node is visited exactly once. -/
theorem walkGo_nodup (store : Store) (d : DFile → Nat)
    (hids : (store.map DFile.id).Nodup)
    (hpar : ∀ x ∈ store, x.parents.length ≤ 1)
    (hdepth : ∀ c ∈ store, ∀ pf ∈ store, pf.id ∈ c.parents → d c = d pf + 1) :
    ∀ (fuel : Nat) (path : List String) (file : DFile) (l : List (String × DFile)),
      walkGo store fuel path file = some l → file ∈ store →
      (l.map Prod.snd).Nodup := by
  intro fuel
  induction fuel with
  | zero => intro path file l h; simp [walkGo] at h
  | succ fuel ih =>
    intro path file l h hf
    rw [walkGo_succ] at h
    by_cases hfold : (file.mimeType == mimeTypeGoogleAppFolder) = true
    · rw [if_pos hfold] at h
      cases hwc : walkChildren store fuel path (findAllIn store file.id) with
      | none => rw [hwc] at h; simp at h
      | some rest =>
        rw [hwc] at h
        obtain rfl : l = _ :: rest := (Option.some.inj h).symm
        rw [List.map_cons, List.nodup_cons]
        constructor
        · intro hmem
          obtain ⟨⟨q, g⟩, hqg, hsnd⟩ := List.mem_map.mp hmem
          obtain ⟨c, n, hc, hdsc⟩ :=
            walkChildren_sound store fuel (walkGo_sound store fuel) _ path rest q g hwc hqg
          obtain ⟨hcm, hcp, hct⟩ := (mem_findAllIn store file.id c).mp hc
          have h1 : d g = d c + n := descend_depth store d hdepth c g n hdsc hcm
          have h2 : d c = d file + 1 := hdepth c hcm file hf hcp
          have h3 : g = file := hsnd
          rw [h3] at h1
          omega
        · apply walkChildren_nodup store d hids hpar hdepth fuel file hf
            (fun p fl l' hw hm => ih p fl l' hw hm) _ path rest hwc
          · exact (List.Nodup.of_map DFile.id hids).filter _
          · intro c hc
            exact (mem_findAllIn store file.id c).mp hc
    · rw [if_neg hfold] at h
      obtain rfl : l = _ := (Option.some.inj h).symm
      simp

/-- A successful child loop is the concatenation of one block per
child, in listing order, each block being that child's walk. -/
theorem walkChildren_blocks (store : Store) (fuel : Nat) :
    ∀ (cs : List DFile) (path : List String) (l : List (String × DFile)),
      walkChildren store fuel path cs = some l →
      ∃ blocks, l = blocks.flatten
        ∧ List.Forall₂ (fun c lc => walkGo store fuel (path ++ [c.name]) c = some lc)
            cs blocks := by
  intro cs
  induction cs with
  | nil =>
    intro path l h
    rw [walkChildren_nil] at h
    obtain rfl : l = [] := (Option.some.inj h).symm
    exact ⟨[], rfl, List.Forall₂.nil⟩
  | cons c cs ihcs =>
    intro path l h
    rw [walkChildren_cons] at h
    cases hw : walkGo store fuel (path ++ [c.name]) c with
    | none => rw [hw] at h; simp at h
    | some lc =>
      rw [hw] at h
      cases hcs : walkChildren store fuel path cs with
      | none => rw [hcs] at h; simp at h
      | some ls =>
        rw [hcs] at h
        obtain rfl : l = lc ++ ls := (Option.some.inj h).symm
        obtain ⟨blocks, rfl, hfa⟩ := ihcs path ls hcs
        exact ⟨lc :: blocks, rfl, List.Forall₂.cons hw hfa⟩

/-- C7: a completed walk visits the starting node first; its visits
are exactly the reachable subtree (each node of the subtree once, on a
forest-shaped store); a folder's visit list is its own visit followed
by the concatenated walks of its children in listing order —
pre-order, each node before all of its descendants; and a non-folder
node (shortcut, opaque application document, plain file) is visited
but never expanded. -/
theorem c7_walk_preorder (store : Store) (d : DFile → Nat) (fuel : Nat)
    (rootID : String) (froot : DFile) (l : List (String × DFile))
    (hids : (store.map DFile.id).Nodup)
    (hpar : ∀ g ∈ store, g.parents.length ≤ 1)
    (hdepth : ∀ c ∈ store, ∀ pf ∈ store, pf.id ∈ c.parents → d c = d pf + 1)
    (hroot : findByID store rootID = some froot)
    (hw : walkGo store fuel [] froot = some l) :
    Walk store fuel rootID = some (.ok l)
    ∧ l.head? = some ("/", froot)
    ∧ (∀ g, (∃ q, (q, g) ∈ l) ↔ Reaches store froot g)
    ∧ (l.map Prod.snd).Nodup
    ∧ (froot.mimeType = mimeTypeGoogleAppFolder →
        ∃ fuel2 blocks, fuel = fuel2 + 1
          ∧ l = ("/", froot) :: blocks.flatten
          ∧ List.Forall₂ (fun c lc => walkGo store fuel2 [c.name] c = some lc)
              (findAllIn store froot.id) blocks)
    ∧ (∀ (file : DFile) (path : List String) (fl : List (String × DFile)),
        walkGo store fuel path file = some fl →
        file.mimeType ≠ mimeTypeGoogleAppFolder →
        fl = [("/" ++ String.intercalate "/" path, file)]) := by
  have hrm : froot ∈ store := List.mem_of_find?_eq_some hroot
  refine ⟨by simp [Walk, hroot, hw], ?_, ?_, ?_, ?_, ?_⟩
  · have hh := walkGo_head store fuel [] froot l hw
    simpa using hh
  · intro g
    constructor
    · rintro ⟨q, hq⟩
      obtain ⟨n, hn⟩ := walkGo_sound store fuel [] froot l q g hw hq
      exact (reaches_iff_descend store froot g).mpr ⟨n, hn⟩
    · intro hr
      exact walkGo_complete store froot g hr fuel [] l hw
  · exact walkGo_nodup store d hids hpar hdepth fuel [] froot l hw hrm
  · intro hfo
    cases fuel with
    | zero => simp [walkGo] at hw
    | succ fuel2 =>
      rw [walkGo_succ, if_pos (by simp [hfo])] at hw
      cases hwc : walkChildren store fuel2 [] (findAllIn store froot.id) with
      | none => rw [hwc] at hw; simp at hw
      | some rest =>
        rw [hwc] at hw
        obtain rfl : l = _ :: rest := (Option.some.inj hw).symm
        obtain ⟨blocks, rfl, hfa⟩ := walkChildren_blocks store fuel2 _ [] rest hwc
        exact ⟨fuel2, blocks, rfl, rfl, by simpa using hfa⟩
  · intro file path fl hwf hnf
    cases fuel with
    | zero => simp [walkGo] at hw
    | succ fuel2 =>
      rw [walkGo_nonfolder store fuel2 path file hnf] at hwf
      exact (Option.some.inj hwf).symm

/-- C7 witness: a root folder with a folder child `a` (containing file
`x`) and a shortcut child `b`; the walk with fuel 3 visits all four
nodes, root first. -/
theorem c7_walk_preorder_witness :
    Walk [⟨"r", "", Drivefs.mimeTypeGoogleAppFolder, [], false⟩,
          ⟨"a1", "a", Drivefs.mimeTypeGoogleAppFolder, ["r"], false⟩,
          ⟨"x1", "x", "text/plain", ["a1"], false⟩,
          ⟨"b1", "b", Drivefs.mimeTypeGoogleAppShortcut, ["r"], false⟩] 3 "r"
      = some (.ok
          [("/", ⟨"r", "", Drivefs.mimeTypeGoogleAppFolder, [], false⟩),
           ("/a", ⟨"a1", "a", Drivefs.mimeTypeGoogleAppFolder, ["r"], false⟩),
           ("/a/x", ⟨"x1", "x", "text/plain", ["a1"], false⟩),
           ("/b", ⟨"b1", "b", Drivefs.mimeTypeGoogleAppShortcut, ["r"], false⟩)])
    ∧ (([("/", ⟨"r", "", Drivefs.mimeTypeGoogleAppFolder, [], false⟩),
          ("/a", ⟨"a1", "a", Drivefs.mimeTypeGoogleAppFolder, ["r"], false⟩),
          ("/a/x", ⟨"x1", "x", "text/plain", ["a1"], false⟩),
          ("/b", ⟨"b1", "b", Drivefs.mimeTypeGoogleAppShortcut, ["r"], false⟩)] :
            List (String × DFile)).map Prod.snd).Nodup :=
  ⟨(c7_walk_preorder
      [⟨"r", "", Drivefs.mimeTypeGoogleAppFolder, [], false⟩,
       ⟨"a1", "a", Drivefs.mimeTypeGoogleAppFolder, ["r"], false⟩,
       ⟨"x1", "x", "text/plain", ["a1"], false⟩,
       ⟨"b1", "b", Drivefs.mimeTypeGoogleAppShortcut, ["r"], false⟩]
      (fun f => if f.id = "r" then 0 else if f.id = "x1" then 2 else 1) 3 "r"
      ⟨"r", "", Drivefs.mimeTypeGoogleAppFolder, [], false⟩
      [("/", ⟨"r", "", Drivefs.mimeTypeGoogleAppFolder, [], false⟩),
       ("/a", ⟨"a1", "a", Drivefs.mimeTypeGoogleAppFolder, ["r"], false⟩),
       ("/a/x", ⟨"x1", "x", "text/plain", ["a1"], false⟩),
       ("/b", ⟨"b1", "b", Drivefs.mimeTypeGoogleAppShortcut, ["r"], false⟩)]
      (by decide) (by decide) (by decide) (by decide) (by decide)).1,
   (c7_walk_preorder
      [⟨"r", "", Drivefs.mimeTypeGoogleAppFolder, [], false⟩,
       ⟨"a1", "a", Drivefs.mimeTypeGoogleAppFolder, ["r"], false⟩,
       ⟨"x1", "x", "text/plain", ["a1"], false⟩,
       ⟨"b1", "b", Drivefs.mimeTypeGoogleAppShortcut, ["r"], false⟩]
      (fun f => if f.id = "r" then 0 else if f.id = "x1" then 2 else 1) 3 "r"
      ⟨"r", "", Drivefs.mimeTypeGoogleAppFolder, [], false⟩
      [("/", ⟨"r", "", Drivefs.mimeTypeGoogleAppFolder, [], false⟩),
       ("/a", ⟨"a1", "a", Drivefs.mimeTypeGoogleAppFolder, ["r"], false⟩),
       ("/a/x", ⟨"x1", "x", "text/plain", ["a1"], false⟩),
       ("/b", ⟨"b1", "b", Drivefs.mimeTypeGoogleAppShortcut, ["r"], false⟩)]
      (by decide) (by decide) (by decide) (by decide) (by decide)).2.2.2.1⟩

end Drivefs
